import Mathlib

/-!
# SakuraQAReview — verification of the review aggregation and reconciliation engine

A shallow embedding of the JavaScript sources of the SakuraQAReview repository
(`js/analytics.js`, `js/storage.js`, `js/app.js`), together with theorems that
settle the specification claims about the aggregation engine, the missing-record
reconciler, the storage adapter and the quiz submission logic.

Modelling conventions:
* JavaScript plain objects used as string-keyed dictionaries are modelled as
  association lists in insertion order (`List (String × V)`); `obj[k]` reads are
  `aget`, the create-if-absent-then-mutate idiom is `updAdd`, and plain
  overwriting assignment is `aset`.
* The legacy field-name duality (`reviewer_name`/`reviewerName`,
  `question_id`/`questionId`, `is_correct`/`isCorrect`) is resolved at the
  record boundary: record fields below hold the already-resolved values of the
  JS expressions such as `review.reviewer_name || review.reviewerName`.
* JS numbers are modelled as `ℚ`; `x.toFixed(1)` followed by `parseFloat` is
  `jsToFixed1`, rounding to one decimal (half away from zero on the
  non-negative values that occur here), per the ECMAScript `toFixed` rule.
* `fetch`-based remote operations are modelled by an explicit `RemoteFetch`
  outcome value describing how the network call went.
-/

namespace SakuraQA

/-- A question of the catalog (`quiz/questions.json` entries as read by
`analytics.js` and `app.js`): `questionID`, `question` text, `category`,
optional `authored_by`, the `choice` list and the `answer` text. -/
structure Question where
  questionID : String
  question : String
  category : String
  authored_by : Option String
  choice : List String
  answer : String
deriving DecidableEq, Repr

/-- An answer record as stored by `StorageManager.saveResult` / fetched from the
remote store.  Fields hold the values after the legacy field-name resolution
performed at each read site (`review.question_id || review.questionId`, etc.). -/
structure ReviewRecord where
  review_id : String
  question_id : String
  question_index : Nat
  reviewer_name : String
  category : String
  answer : String
  correct_answer : String
  is_correct : Bool
  comment : String
deriving DecidableEq, Repr

/-- An enriched record: the record joined with its resolved catalog question
(`analyzeData`'s `{...review, question}`). -/
abbrev Enriched := ReviewRecord × Question

/-- `x.toFixed(1)` (then `parseFloat`) on a non-negative JS number: round to the
nearest tenth, ties toward the larger value, as specified for `Number.toFixed`. -/
def jsToFixed1 (q : ℚ) : ℚ := (⌊q * 10 + 1/2⌋ : ℤ) / 10

section AssocKit

variable {V : Type}

/-- Dictionary read `obj[k]` on an insertion-ordered association list. -/
def aget : List (String × V) → String → Option V
  | [], _ => none
  | p :: rest, k => if p.1 = k then some p.2 else aget rest k

/-- Plain overwriting assignment `obj[k] = v` (new keys are appended, which is
JS object insertion order). -/
def aset : List (String × V) → String → V → List (String × V)
  | [], k, v => [(k, v)]
  | p :: rest, k, v => if p.1 = k then (p.1, v) :: rest else p :: aset rest k v

/-- The JS idiom `if (!obj[k]) obj[k] = d; ⟨mutate obj[k] by g⟩`: apply `g` to
the existing entry, or to the default `d` for a fresh key (appended at the end,
preserving insertion order). -/
def updAdd : List (String × V) → String → V → (V → V) → List (String × V)
  | [], k, d, g => [(k, g d)]
  | p :: rest, k, d, g =>
      if p.1 = k then (p.1, g p.2) :: rest else p :: updAdd rest k d g

variable {A : Type}

/-- A loop `for (x of l) { if (!obj[key x]) obj[key x] = d; mutate by g x }`
over an accumulated dictionary `st`. -/
def foldUpd (key : A → String) (d : V) (g : A → V → V) :
    List (String × V) → List A → List (String × V)
  | st, [] => st
  | st, x :: xs => foldUpd key d g (updAdd st (key x) d (g x)) xs

/-- The keys of `l`, first occurrence only, that are not already in `seen`
(the key set a `foldUpd` loop freshly creates, in creation order). -/
def dedupNew (key : A → String) : List String → List A → List String
  | _, [] => []
  | seen, x :: xs =>
      if key x ∈ seen then dedupNew key seen xs
      else key x :: dedupNew key (key x :: seen) xs

theorem aget_aset_self (st : List (String × V)) (k : String) (v : V) :
    aget (aset st k v) k = some v := by
  induction st with
  | nil => simp [aset, aget]
  | cons p rest ih =>
      by_cases h : p.1 = k
      · simp [aset, aget, h]
      · simp [aset, aget, h, ih]

theorem aget_aset_ne (st : List (String × V)) (k k' : String) (v : V)
    (h : k' ≠ k) : aget (aset st k v) k' = aget st k' := by
  induction st with
  | nil => simp [aset, aget, Ne.symm h]
  | cons p rest ih =>
      by_cases hp : p.1 = k
      · have hp' : ¬ p.1 = k' := fun hc => h (hc ▸ hp)
        simp [aset, aget, hp, hp', Ne.symm h]
      · by_cases hp' : p.1 = k'
        · simp [aset, aget, hp, hp', h]
        · simp [aset, aget, hp, hp', ih]

theorem aget_updAdd_self (st : List (String × V)) (k : String) (d : V)
    (g : V → V) : aget (updAdd st k d g) k = some (g ((aget st k).getD d)) := by
  induction st with
  | nil => simp [updAdd, aget]
  | cons p rest ih =>
      by_cases h : p.1 = k
      · simp [updAdd, aget, h]
      · simp [updAdd, aget, h, ih]

theorem aget_updAdd_ne (st : List (String × V)) (k k' : String) (d : V)
    (g : V → V) (h : k' ≠ k) : aget (updAdd st k d g) k' = aget st k' := by
  induction st with
  | nil => simp [updAdd, aget, Ne.symm h]
  | cons p rest ih =>
      by_cases hp : p.1 = k
      · have hp' : ¬ p.1 = k' := fun hc => h (hc ▸ hp)
        simp [updAdd, aget, hp, hp', Ne.symm h]
      · simp [updAdd, aget, hp, ih]

theorem keys_updAdd (st : List (String × V)) (k : String) (d : V) (g : V → V) :
    (updAdd st k d g).map Prod.fst =
      if k ∈ st.map Prod.fst then st.map Prod.fst else st.map Prod.fst ++ [k] := by
  induction st with
  | nil => simp [updAdd]
  | cons p rest ih =>
      by_cases h : p.1 = k
      · simp [updAdd, h]
      · simp only [updAdd, if_neg h, List.map_cons, List.mem_cons]
        rw [ih]
        by_cases hm : k ∈ rest.map Prod.fst
        · simp [hm, Ne.symm h]
        · simp [hm, Ne.symm h]

/-- Reading one key out of a `foldUpd` loop: only the records whose key matches
contribute, folded left in input order starting from the preexisting entry (or
the default `d` when the key is fresh). -/
theorem aget_foldUpd (key : A → String) (d : V) (g : A → V → V)
    (l : List A) (st : List (String × V)) (k : String) :
    aget (foldUpd key d g st l) k =
      if (l.filter (fun x => key x = k)).isEmpty then aget st k
      else some ((l.filter (fun x => key x = k)).foldl (fun v x => g x v)
        ((aget st k).getD d)) := by
  induction l generalizing st with
  | nil => simp [foldUpd]
  | cons x xs ih =>
      by_cases hx : key x = k
      · have hfil : (x :: xs).filter (fun y => decide (key y = k)) =
            x :: xs.filter (fun y => decide (key y = k)) := by
          simp [List.filter_cons, hx]
        rw [foldUpd, ih, hfil]
        by_cases he : (xs.filter (fun y => decide (key y = k))).isEmpty
        · have hnil : xs.filter (fun y => decide (key y = k)) = [] :=
            List.isEmpty_iff.mp he
          rw [if_pos he, hnil]
          subst hx
          simp [aget_updAdd_self]
        · rw [if_neg he]
          simp only [List.isEmpty_cons, if_neg]
          subst hx
          rw [aget_updAdd_self]
          simp [List.foldl_cons]
      · have hfil : (x :: xs).filter (fun y => decide (key y = k)) =
            xs.filter (fun y => decide (key y = k)) := by
          simp [List.filter_cons, hx]
        rw [foldUpd, ih, hfil, aget_updAdd_ne _ _ _ _ _ (fun hh => hx hh.symm)]

/-- `dedupNew` only depends on the membership of `seen`. -/
theorem dedupNew_congr (key : A → String) {seen seen' : List String}
    (m : List A) (h : ∀ s, s ∈ seen ↔ s ∈ seen') :
    dedupNew key seen m = dedupNew key seen' m := by
  induction m generalizing seen seen' with
  | nil => rfl
  | cons y ys ihm =>
      by_cases hy : key y ∈ seen
      · simp [dedupNew, hy, (h _).mp hy, ihm h]
      · have hy' : key y ∉ seen' := fun hc => hy ((h _).mpr hc)
        rw [dedupNew, dedupNew, if_neg hy, if_neg hy']
        have hs : ∀ s, s ∈ key y :: seen ↔ s ∈ key y :: seen' := by
          intro s
          simp [h s]
        rw [ihm hs]

/-- The keys produced by a `foldUpd` loop: the preexisting keys followed by the
fresh keys in order of first occurrence. -/
theorem keys_foldUpd (key : A → String) (d : V) (g : A → V → V)
    (l : List A) (st : List (String × V)) :
    (foldUpd key d g st l).map Prod.fst =
      st.map Prod.fst ++ dedupNew key (st.map Prod.fst) l := by
  induction l generalizing st with
  | nil => simp [foldUpd, dedupNew]
  | cons x xs ih =>
      rw [foldUpd, ih, keys_updAdd]
      by_cases hm : key x ∈ st.map Prod.fst
      · simp [dedupNew, hm]
      · rw [if_neg hm]
        have hs : ∀ s : String,
            s ∈ st.map Prod.fst ++ [key x] ↔ s ∈ key x :: st.map Prod.fst := by
          intro s
          simp [or_comm]
        rw [dedupNew_congr key xs hs]
        simp [dedupNew, hm, List.append_assoc]

theorem dedupNew_nodup (key : A → String) (seen : List String) (l : List A) :
    (dedupNew key seen l).Nodup ∧ ∀ s ∈ dedupNew key seen l, s ∉ seen := by
  induction l generalizing seen with
  | nil => simp [dedupNew]
  | cons x xs ih =>
      by_cases hx : key x ∈ seen
      · simpa [dedupNew, hx] using ih seen
      · obtain ⟨hnd, hns⟩ := ih (key x :: seen)
        refine ⟨?_, ?_⟩
        · simp only [dedupNew, if_neg hx, List.nodup_cons]
          exact ⟨fun hc => (hns _ hc) (List.mem_cons_self _ _), hnd⟩
        · intro s hs
          simp only [dedupNew, if_neg hx, List.mem_cons] at hs
          rcases hs with rfl | hs
          · exact hx
          · exact fun hc => (hns _ hs) (List.mem_cons_of_mem _ hc)

theorem mem_dedupNew (key : A → String) (seen : List String) (l : List A)
    (s : String) :
    s ∈ dedupNew key seen l ↔ s ∈ l.map key ∧ s ∉ seen := by
  induction l generalizing seen with
  | nil => simp [dedupNew]
  | cons x xs ih =>
      by_cases hx : key x ∈ seen
      · rw [dedupNew, if_pos hx, ih]
        constructor
        · rintro ⟨hm, hn⟩
          exact ⟨List.mem_cons_of_mem _ hm, hn⟩
        · rintro ⟨hm, hn⟩
          rcases List.mem_cons.mp hm with rfl | hm
          · exact absurd hx hn
          · exact ⟨hm, hn⟩
      · rw [dedupNew, if_neg hx]
        constructor
        · intro hmem
          rcases List.mem_cons.mp hmem with rfl | hmem
          · exact ⟨List.mem_cons_self _ _, hx⟩
          · obtain ⟨hm, hn⟩ := (ih _).mp hmem
            refine ⟨List.mem_cons_of_mem _ hm, ?_⟩
            intro hc
            exact hn (List.mem_cons_of_mem _ hc)
        · rintro ⟨hm, hn⟩
          rcases List.mem_cons.mp hm with rfl | hm
          · exact List.mem_cons_self _ _
          · by_cases hsx : s = key x
            · exact hsx ▸ List.mem_cons_self _ _
            · refine List.mem_cons_of_mem _ ((ih _).mpr ⟨hm, ?_⟩)
              simp [hsx, hn]

theorem aget_map_value (st : List (String × V)) {W : Type} (f : V → W)
    (k : String) :
    aget (st.map (fun p => (p.1, f p.2))) k = (aget st k).map f := by
  induction st with
  | nil => simp [aget]
  | cons p rest ih =>
      by_cases h : p.1 = k
      · simp [aget, h]
      · simp [aget, h, ih]

/-- In an association list with pairwise-distinct keys, membership of a pair
determines the `aget` value. -/
theorem aget_eq_of_mem_of_nodup (st : List (String × V)) (k : String) (v : V)
    (hnd : (st.map Prod.fst).Nodup) (hm : (k, v) ∈ st) : aget st k = some v := by
  induction st with
  | nil => simp at hm
  | cons p rest ih =>
      simp only [List.map_cons, List.nodup_cons] at hnd
      rcases List.mem_cons.mp hm with rfl | hm
      · simp [aget]
      · have hk : p.1 ≠ k := by
          intro hc
          exact hnd.1 (hc ▸ (List.mem_map.mpr ⟨(k, v), hm, rfl⟩))
        simp [aget, hk, ih hnd.2 hm]

end AssocKit

/-! ## Record Store Adapter and Missing-Record Reconciler (`js/storage.js`) -/

/-- Outcome of the remote `GET` performed by
`StorageManager.getReviewsFromAPI`:
* `disabled` — `AWS_CONFIG` missing, S3 upload disabled, or no endpoint;
* `unreachable` — the `fetch` rejected, the HTTP status was not ok, or the
  response body failed to parse (all caught inside `getReviewsFromAPI`);
* `payload success reviews` — a parsed JSON body `{success, reviews}`, with
  `none` for an absent `reviews` field. -/
inductive RemoteFetch where
  | disabled : RemoteFetch
  | unreachable : RemoteFetch
  | payload (success : Bool) (reviews : Option (List ReviewRecord)) : RemoteFetch
deriving DecidableEq, Repr

/-- `StorageManager.getReviewsFromAPI` (storage.js:549-582): every failure path
is caught internally and yields `[]`; a well-formed payload yields
`result.success && result.reviews ? result.reviews : []`. -/
def getReviewsFromAPI : RemoteFetch → List ReviewRecord
  | .disabled => []
  | .unreachable => []
  | .payload success reviews => if success then reviews.getD [] else []

/-- `StorageManager.getMissingQuestions` (storage.js:591-621): filter the remote
records to the reviewer and category, collect their `question_index` values, and
return every index of `[0, allQuestions.length)` not among them.  The JS
`try`/`catch` around this body is unreachable for the modelled payload shapes
because `getReviewsFromAPI` already catches all of its own failures. -/
def getMissingQuestions (remote : RemoteFetch) (reviewerName category : String)
    (allQuestions : List Question) : List Nat :=
  let s3Reviews := getReviewsFromAPI remote
  let relevantReviews := s3Reviews.filter
    (fun r => r.reviewer_name == reviewerName && r.category == category)
  let savedIndexes := relevantReviews.map (fun r => r.question_index)
  (List.range allQuestions.length).filter (fun i => !(savedIndexes.contains i))

/-- A progress marker as written by `StorageManager.saveProgress`. -/
structure ProgressEntry where
  reviewerName : String
  category : String
  questionIndex : Nat
  timestamp : String
deriving DecidableEq, Repr

/-- The localStorage key `` `${reviewerName}__${category}` `` used by the
progress store. -/
def progressKey (reviewerName category : String) : String :=
  reviewerName ++ "__" ++ category

/-- One observable step of `StorageManager.saveProgress`, in program order. -/
inductive ProgressEvent where
  | localWrite (key : String) (questionIndex : Nat) : ProgressEvent
  | remoteAttempt (succeeded : Bool) : ProgressEvent
deriving DecidableEq, Repr

/-- `StorageManager.saveProgress` (storage.js:348-369): write the
`reviewerName__category` entry of the local progress object synchronously, then
— only when the API is configured (`attemptRemote`) — call `saveProgressToAPI`,
which itself catches every failure and merely returns `false` (`remoteOk`).
The local store is a map from keys to entries; the event list records the
operations in the order the function performs them. -/
def saveProgress (attemptRemote remoteOk : Bool)
    (store : String → Option ProgressEntry)
    (reviewerName category : String) (questionIndex : Nat) (now : String) :
    (String → Option ProgressEntry) × List ProgressEvent :=
  let key := progressKey reviewerName category
  let store' := fun k =>
    if k = key then some ⟨reviewerName, category, questionIndex, now⟩ else store k
  (store',
    ProgressEvent.localWrite key questionIndex ::
      (if attemptRemote then [ProgressEvent.remoteAttempt remoteOk] else []))

/-- `StorageManager.updateComment` (storage.js:68-86): find the first stored
result with the given `review_id`; update its comment and report `true`, or
leave the list untouched and report `false`.  Errors are caught and also
reported as `false`. -/
def updateComment : List ReviewRecord → String → String →
    List ReviewRecord × Bool
  | [], _, _ => ([], false)
  | r :: rest, reviewId, comment =>
      if r.review_id = reviewId then
        ({ r with comment := comment } :: rest, true)
      else
        let (rest', found) := updateComment rest reviewId comment
        (r :: rest', found)

/-! ## Quiz Session State Machine: answer submission (`js/app.js`) -/

/-- `QuizApp.renderChoices` (app.js:273-303): the correct-answer index is the
first choice whose text equals the question's `answer`; a falsy `answer`
(absent or empty) or an unmatched text falls back to index 0.
`List.findIdx` returns `choices.length` when nothing matches, which is exactly
the JS `findIndex === -1` fallback case. -/
def findCorrectIndex (choices : List String) (answer : Option String) : Nat :=
  match answer with
  | none => 0
  | some a =>
      if a = "" then 0
      else
        let i := choices.findIdx (fun c => c == a)
        if i < choices.length then i else 0

/-- The three fields of the answer record produced by `QuizApp.submitAnswer`
(app.js:332-358) that claim C7 is about: the chosen choice text (`answer`), the
text of the choice at the correct-answer index (`correctAnswer`), and
`isCorrect`, which the code computes as index equality
`this.selectedAnswer === this.correctAnswerIndex`. -/
structure Submission where
  chosenText : String
  correctText : String
  isCorrect : Bool
deriving DecidableEq, Repr

/-- `QuizApp.submitAnswer`, restricted to the record fields of claim C7.
`choices.getD i ""` reads the text of the i-th rendered choice button. -/
def submitOutcome (choices : List String) (answer : Option String)
    (selected : Nat) : Submission :=
  let correctIndex := findCorrectIndex choices answer
  ⟨choices.getD selected "", choices.getD correctIndex "",
    selected == correctIndex⟩

/-! ## Aggregation Engine (`js/analytics.js`) -/

/-- Accumulator of `calculateByReviewer` (analytics.js:391-429): the JS object
`{correct, total, uniqueQuestions}` (the `correctQuestions` set is only ever
deleted again and does not feed the output; `uniq` models the
`uniqueQuestions` Set by its membership). -/
structure BStat where
  correct : Nat
  total : Nat
  uniq : List String
deriving DecidableEq, Repr

/-- One loop body of `calculateByReviewer`: a question id not seen before for
this reviewer bumps `total` (and `correct` when the record is correct) and is
added to the set; a duplicate id changes nothing. -/
def bupd (e : Enriched) (s : BStat) : BStat :=
  if e.1.question_id ∈ s.uniq then s
  else
    ⟨s.correct + (if e.1.is_correct then 1 else 0), s.total + 1,
      e.1.question_id :: s.uniq⟩

/-- A finished by-reviewer row: `{correct, total, accuracy}` after the Sets are
deleted and the accuracy string is attached. -/
structure RStat where
  correct : Nat
  total : Nat
  accuracy : ℚ
deriving DecidableEq, Repr

/-- `calculateByReviewer` (analytics.js:391-429): group the enriched records by
reviewer, counting each question id at most once per reviewer (first record
wins), then attach `accuracy = (correct / total * 100).toFixed(1)` (`0` for an
empty total, per the JS ternary). -/
def calculateByReviewer (l : List Enriched) : List (String × RStat) :=
  (foldUpd (fun e => e.1.reviewer_name) ⟨0, 0, []⟩ bupd [] l).map
    (fun p =>
      (p.1,
        ⟨p.2.correct, p.2.total,
          if p.2.total > 0 then
            jsToFixed1 ((p.2.correct : ℚ) / (p.2.total : ℚ) * 100)
          else 0⟩))

/-- The overall statistic (`calculateOverallStats`, analytics.js:293-313): the
mean of the by-reviewer accuracies, again to one decimal, or `{0, 0}` when no
reviewer group exists. -/
structure Overall where
  accuracy : ℚ
  reviewerCount : Nat
deriving DecidableEq, Repr

/-- `calculateOverallStats` (analytics.js:293-313). -/
def calculateOverallStats (reviewerStats : List (String × RStat)) : Overall :=
  if reviewerStats.isEmpty then ⟨0, 0⟩
  else
    ⟨jsToFixed1
        (((reviewerStats.map (fun p => p.2.accuracy)).sum) /
          (reviewerStats.length : ℚ)),
      reviewerStats.length⟩

/-- Accumulator cell of `calculateByQuestion` (analytics.js:434-465): the
`question` field is set from the first record of the group, `correct`/`total`
count every record. -/
structure QAcc where
  questionRef : Option Question
  correct : Nat
  total : Nat
deriving DecidableEq, Repr

/-- One loop body of `calculateByQuestion`. -/
def qupd (e : Enriched) (s : QAcc) : QAcc :=
  ⟨s.questionRef <|> some e.2,
    s.correct + (if e.1.is_correct then 1 else 0), s.total + 1⟩

/-- A finished by-question row. -/
structure QStat where
  questionId : String
  questionRef : Question
  correct : Nat
  total : Nat
  accuracy : ℚ
deriving DecidableEq, Repr

/-- The unsorted by-question rows, in grouping (first-occurrence) order. -/
def questionGroups (l : List Enriched) : List QStat :=
  (foldUpd (fun e => e.1.question_id) ⟨none, 0, 0⟩ qupd [] l).map
    (fun p =>
      ⟨p.1, (p.2.questionRef).getD ⟨"", "", "", none, [], ""⟩, p.2.correct,
        p.2.total,
        if p.2.total > 0 then
          jsToFixed1 ((p.2.correct : ℚ) / (p.2.total : ℚ) * 100)
        else 0⟩)

/-- The comparison `parseFloat(a.accuracy) - parseFloat(b.accuracy)` used by
the by-question sort. -/
def qleAccuracy (a b : QStat) : Prop := a.accuracy ≤ b.accuracy

instance : DecidableRel qleAccuracy := fun a b =>
  inferInstanceAs (Decidable (a.accuracy ≤ b.accuracy))

instance : IsTotal QStat qleAccuracy := ⟨fun a b => le_total a.accuracy b.accuracy⟩

instance : IsTrans QStat qleAccuracy := ⟨fun _ _ _ => le_trans⟩

/-- `calculateByQuestion` (analytics.js:434-465): the grouped rows sorted
ascending by accuracy.  JS `Array.prototype.sort` is stable, which insertion
sort models faithfully. -/
def calculateByQuestion (l : List Enriched) : List QStat :=
  (questionGroups l).insertionSort qleAccuracy

/-- Per-reviewer cell of `calculateByAuthor` (analytics.js:318-386). -/
structure CT where
  correct : Nat
  total : Nat
deriving DecidableEq, Repr

/-- One inner loop body of `calculateByAuthor` for a fixed author: bump the
reviewer's `{correct, total}` cell. -/
def ctupd (e : Enriched) (s : CT) : CT :=
  ⟨s.correct + (if e.1.is_correct then 1 else 0), s.total + 1⟩

/-- The JS guard `author && author !== 'Unknown'`: a truthy author name other
than the literal `"Unknown"`. -/
def authorOk : Option String → Bool
  | none => false
  | some a => !(a == "" || a == "Unknown")

/-- A finished by-author row. -/
structure AuthorStat where
  questionCount : Nat
  accuracy : ℚ
  reviewerCount : Nat
deriving DecidableEq, Repr

/-- The raw (unrounded) accuracy `s.total > 0 ? s.correct / s.total * 100 : 0`
of one `(author, reviewer)` cell. -/
def ctAccuracy (s : CT) : ℚ :=
  if s.total > 0 then (s.correct : ℚ) / (s.total : ℚ) * 100 else 0

/-- `calculateByAuthor` (analytics.js:318-386): records with a falsy or
`"Unknown"` author are skipped; the rest are grouped by author and, inside an
author, by reviewer into `{correct, total}` cells.  Each author's headline
accuracy is the mean of its reviewers' raw accuracies, to one decimal; its
question count comes from the full catalog. -/
def calculateByAuthor (questions : List Question) (l : List Enriched) :
    List (String × AuthorStat) :=
  let grouped : List (String × List (String × CT)) :=
    foldUpd (fun e => (e.2.authored_by).getD "") ([] : List (String × CT))
      (fun e inner => updAdd inner e.1.reviewer_name ⟨0, 0⟩ (ctupd e)) []
      (l.filter (fun e => authorOk e.2.authored_by))
  (grouped.filter (fun p => !p.2.isEmpty)).map
    (fun p =>
      (p.1,
        ⟨(questions.filter (fun q => q.authored_by == some p.1)).length,
          jsToFixed1
            (((p.2.map (fun c => ctAccuracy c.2)).sum) / (p.2.length : ℚ)),
          p.2.length⟩))

/-- The result of `Analytics.analyzeData` (analytics.js:108-149). -/
structure AnalyzeResult where
  enriched : List Enriched
  authorStats : List (String × AuthorStat)
  reviewerStats : List (String × RStat)
  questionStats : List QStat
  overall : Overall

/-- The `questionMap` lookup of `analyzeData`: `Map.set` lets a later catalog
entry with the same `questionID` overwrite an earlier one. -/
def questionLookup (questions : List Question) (qid : String) : Option Question :=
  (questions.filter (fun q => q.questionID == qid)).getLast?

/-- `Analytics.analyzeData` (analytics.js:108-149): keep only records whose
question id is in the catalog and whose reviewer is selected, enrich each with
its catalog question (`question || {}`), then compute the four statistic
groups, the overall one from the by-reviewer group. -/
def analyzeData (questions : List Question) (reviews : List ReviewRecord)
    (selectedReviewers : List String) : AnalyzeResult :=
  let filteredReviews :=
    (reviews.filter
        (fun rv => questions.any (fun q => q.questionID == rv.question_id))).filter
      (fun rv => selectedReviewers.contains rv.reviewer_name)
  let enrichedReviews := filteredReviews.map
    (fun rv =>
      (rv, (questionLookup questions rv.question_id).getD ⟨"", "", "", none, [], ""⟩))
  let reviewerStats := calculateByReviewer enrichedReviews
  { enriched := enrichedReviews
    authorStats := calculateByAuthor questions enrichedReviews
    reviewerStats := reviewerStats
    questionStats := calculateByQuestion enrichedReviews
    overall := calculateOverallStats reviewerStats }

/-! ## Wide-format CSV export (`downloadQuestionCSV`, analytics.js:656-745) -/

/-- `Analytics.escapeCSV` (analytics.js:750-764) on a present string value. -/
def escapeCSV (s : String) : String :=
  if s.contains ',' || s.contains '\n' || s.contains '"' then
    "\"" ++ (s.replace "\"" "\"\"") ++ "\""
  else s

/-- The `reviewsByQuestion` structure of `downloadQuestionCSV`
(analytics.js:666-680): a map from question id to an object from reviewer name
to `{answer, is_correct}`, where a later record for the same pair plainly
overwrites an earlier one. -/
def buildReviewsByQuestion (l : List Enriched) :
    List (String × List (String × (String × Bool))) :=
  foldUpd (fun e => e.1.question_id) ([] : List (String × (String × Bool)))
    (fun e inner => aset inner e.1.reviewer_name (e.1.answer, e.1.is_correct))
    [] l

/-- The cell `reviewsByQuestion.get(questionId)?.[reviewer]` consulted when the
CSV row is written (analytics.js:718-729). -/
def lookupCell (m : List (String × List (String × (String × Bool))))
    (questionId reviewer : String) : Option (String × Bool) :=
  (aget m questionId).bind (fun inner => aget inner reviewer)

/-- The two cells `<reviewer>_answer`, `<reviewer>_is_correct` that
`downloadQuestionCSV` emits for one question row and one reviewer column
(analytics.js:718-729): the recorded answer (CSV-escaped) and
`'true'`/`'false'`, or the literal `'null'` twice when no record exists. -/
def csvCells (m : List (String × List (String × (String × Bool))))
    (questionId reviewer : String) : String × String :=
  match lookupCell m questionId reviewer with
  | some (ans, ok) => (escapeCSV ans, if ok then "true" else "false")
  | none => ("null", "null")

/-! ## Sample inputs used by witnesses and counterexamples -/

/-- A remote answer record of reviewer `alice`, category `food`, with
`question_index = 1`. -/
def cexRecord : ReviewRecord :=
  ⟨"rev_1", "q9", 1, "alice", "food", "a", "a", true, ""⟩

/-- A catalog question matching `cexRecord`'s question id. -/
def cexQuestion : Question :=
  ⟨"q9", "1+1?", "food", some "A", ["a", "b", "c", "d"], "a"⟩

/-! ## Claim C9 — updateComment on an unknown reviewId is a no-op -/

/-- C9: for every stored result list and every `reviewId` not present in it,
`updateComment` leaves the list unchanged and returns the failure flag `false`
(and, being a total function, raises nothing). -/
theorem updateComment_unknown_id_noop (results : List ReviewRecord)
    (reviewId comment : String)
    (h : ∀ r ∈ results, r.review_id ≠ reviewId) :
    updateComment results reviewId comment = (results, false) := by
  induction results with
  | nil => rfl
  | cons r rest ih =>
      have hr : ¬ r.review_id = reviewId := h r (List.mem_cons_self r rest)
      rw [updateComment, if_neg hr,
        ih (fun x hx => h x (List.mem_cons_of_mem r hx))]

/-- Witness for C9 at a concrete input. -/
theorem updateComment_unknown_id_noop_witness :
    updateComment [cexRecord] "no_such_id" "hello" = ([cexRecord], false) :=
  updateComment_unknown_id_noop [cexRecord] "no_such_id" "hello" (by decide)

/-! ## Claim C8 — saveProgress writes locally first, regardless of the remote -/

/-- C8: `saveProgress` updates the `reviewerName__category` entry of the local
progress store as its first observable action (head of the event trace), for
every remote configuration and outcome; the resulting local store does not
depend on the remote parameters at all, and every other key is unchanged. -/
theorem saveProgress_local_first (attemptRemote remoteOk : Bool)
    (store : String → Option ProgressEntry)
    (reviewerName category : String) (questionIndex : Nat) (now : String) :
    (saveProgress attemptRemote remoteOk store reviewerName category
        questionIndex now).1 (progressKey reviewerName category) =
      some ⟨reviewerName, category, questionIndex, now⟩
    ∧ (∀ k, k ≠ progressKey reviewerName category →
        (saveProgress attemptRemote remoteOk store reviewerName category
          questionIndex now).1 k = store k)
    ∧ (saveProgress attemptRemote remoteOk store reviewerName category
        questionIndex now).2.head? =
      some (ProgressEvent.localWrite (progressKey reviewerName category)
        questionIndex)
    ∧ (∀ attemptRemote' remoteOk' : Bool,
        (saveProgress attemptRemote' remoteOk' store reviewerName category
          questionIndex now).1 =
        (saveProgress attemptRemote remoteOk store reviewerName category
          questionIndex now).1) := by
  refine ⟨by simp [saveProgress], fun k hk => by simp [saveProgress, hk], ?_, ?_⟩
  · simp [saveProgress]
  · intro a o
    funext k
    simp [saveProgress]

/-- Witness for C8 at a concrete input. -/
theorem saveProgress_local_first_witness :
    (saveProgress true false (fun _ => none) "alice" "food" 7 "t0").1
        (progressKey "alice" "food") = some ⟨"alice", "food", 7, "t0"⟩
    ∧ (saveProgress true false (fun _ => none) "alice" "food" 7 "t0").1
        "bob__food" = none
    ∧ (saveProgress true false (fun _ => none) "alice" "food" 7 "t0").2.head? =
      some (ProgressEvent.localWrite (progressKey "alice" "food") 7) := by
  have h := saveProgress_local_first true false (fun _ => none) "alice" "food"
    7 "t0"
  exact ⟨h.1, (h.2.1 "bob__food" (by decide)).trans rfl, h.2.2.1⟩

/-! ## Claim C3 — findMissing when the remote store is unreachable -/

/-- C3 (divergence witness): when the remote fetch fails,
`getReviewsFromAPI` swallows the failure and returns `[]`, so
`getMissingQuestions` reports **every** index `[0, allQuestions.length)` as
missing, not the empty sequence the specification claims (its own `catch`
never fires).  No exception escapes: the function is total. -/
theorem getMissingQuestions_unreachable_returns_all
    (reviewerName category : String) (allQuestions : List Question) :
    getMissingQuestions RemoteFetch.unreachable reviewerName category
        allQuestions = List.range allQuestions.length := by
  simp [getMissingQuestions, getReviewsFromAPI]

/-! ## Claim C2 — the shape of findMissing's output -/

/-- C2, counterexample to the claim as stated: with a single catalog question
(`N = 1`) and one matching remote record whose `question_index` is `1` (out of
range), the distinct saved-index set is `{1}`, yet the complement of the
returned sequence within `[0, 1)` is empty — so the complement is **not**
"exactly the set of distinct `question_index` values" of the filtered remote
records. -/
theorem getMissingQuestions_complement_counterexample :
    getMissingQuestions (RemoteFetch.payload true (some [cexRecord])) "alice"
        "food" [cexQuestion] = [0]
    ∧ ((getReviewsFromAPI (RemoteFetch.payload true (some [cexRecord]))).filter
          (fun r => r.reviewer_name == "alice" && r.category == "food")).map
        (fun r => r.question_index) = [1]
    ∧ ¬ (∀ i : Nat,
          (i < ([cexQuestion] : List Question).length ∧
            i ∉ getMissingQuestions (RemoteFetch.payload true (some [cexRecord]))
              "alice" "food" [cexQuestion]) ↔
          i ∈ ((getReviewsFromAPI
                  (RemoteFetch.payload true (some [cexRecord]))).filter
                (fun r => r.reviewer_name == "alice" && r.category == "food")).map
              (fun r => r.question_index)) := by
  refine ⟨by decide, by decide, fun hall => ?_⟩
  have h1 := (hall 1).mpr (by decide)
  exact absurd h1.1 (by decide)

/-- C2, amended: `getMissingQuestions` returns a strictly ascending,
duplicate-free sequence of indexes inside `[0, allQuestions.length)`, and
within that range an index is **absent** from the result exactly when it occurs
among the `question_index` values of the remote records filtered to the
reviewer and category (equivalently, the complement within the range is the
set of distinct *in-range* saved indexes). -/
theorem getMissingQuestions_complement (remote : RemoteFetch)
    (reviewerName category : String) (allQuestions : List Question) :
    (getMissingQuestions remote reviewerName category allQuestions).Pairwise
        (· < ·)
    ∧ (∀ i ∈ getMissingQuestions remote reviewerName category allQuestions,
        i < allQuestions.length)
    ∧ (∀ i, i < allQuestions.length →
        (i ∉ getMissingQuestions remote reviewerName category allQuestions ↔
          i ∈ ((getReviewsFromAPI remote).filter
                (fun r => r.reviewer_name == reviewerName &&
                  r.category == category)).map (fun r => r.question_index))) := by
  refine ⟨List.Pairwise.filter _ (List.pairwise_lt_range _), ?_, ?_⟩
  · intro i hi
    rw [getMissingQuestions, List.mem_filter] at hi
    exact List.mem_range.mp hi.1
  · intro i hi
    rw [getMissingQuestions]
    simp only [List.mem_filter, List.mem_range, List.mem_map]
    simp [hi]
    tauto

/-- Witness for C2 (amended) at a concrete input. -/
theorem getMissingQuestions_complement_witness :
    ((0 : Nat) ∈ getMissingQuestions (RemoteFetch.payload true (some [cexRecord]))
        "alice" "food" [cexQuestion] → (0 : Nat) < 1)
    ∧ ((0 : Nat) ∉ getMissingQuestions (RemoteFetch.payload true (some [cexRecord]))
          "alice" "food" [cexQuestion] ↔
        (0 : Nat) ∈ ((getReviewsFromAPI
              (RemoteFetch.payload true (some [cexRecord]))).filter
            (fun r => r.reviewer_name == "alice" && r.category == "food")).map
          (fun r => r.question_index)) := by
  have h := getMissingQuestions_complement
    (RemoteFetch.payload true (some [cexRecord])) "alice" "food" [cexQuestion]
  exact ⟨fun hm => h.2.1 0 hm, h.2.2 0 (by decide)⟩

/-! ## Claim C7 — isCorrect versus text equality at submission -/

/-- The correct-answer index stays in bounds whenever any choice is rendered. -/
theorem findCorrectIndex_lt (choices : List String) (answer : Option String)
    (h : 0 < choices.length) : findCorrectIndex choices answer < choices.length := by
  cases answer with
  | none => simpa [findCorrectIndex] using h
  | some a =>
      by_cases ha : a = ""
      · simpa [findCorrectIndex, ha] using h
      · rw [findCorrectIndex]
        simp only [if_neg ha]
        by_cases hi : choices.findIdx (fun c => c == a) < choices.length
        · simp [hi]
        · simpa [hi] using h

/-- C7, counterexample to the claim as stated: with the duplicated choice list
`["a", "a"]` and correct answer text `"a"`, selecting index 1 stores
`chosenText = correctText = "a"` but `isCorrect = false`, because
`submitAnswer` compares **indexes** (`selectedAnswer === correctAnswerIndex`),
not texts. -/
theorem submitOutcome_text_counterexample :
    (submitOutcome ["a", "a"] (some "a") 1).chosenText =
        (submitOutcome ["a", "a"] (some "a") 1).correctText
    ∧ (submitOutcome ["a", "a"] (some "a") 1).isCorrect = false := by
  decide

/-- C7, amended: for every in-bounds selection, `isCorrect` is true exactly
when the selected index equals the resolved correct-answer index; whenever the
choice texts are pairwise distinct this coincides with the claimed text
equality `chosenText = correctText`. -/
theorem submitOutcome_isCorrect_iff_text (choices : List String)
    (answer : Option String) (selected : Nat)
    (hsel : selected < choices.length) (hnd : choices.Nodup) :
    ((submitOutcome choices answer selected).isCorrect = true ↔
      selected = findCorrectIndex choices answer)
    ∧ ((submitOutcome choices answer selected).isCorrect = true ↔
      (submitOutcome choices answer selected).chosenText =
        (submitOutcome choices answer selected).correctText) := by
  have hpos : 0 < choices.length := lt_of_le_of_lt (Nat.zero_le _) hsel
  have hci : findCorrectIndex choices answer < choices.length :=
    findCorrectIndex_lt choices answer hpos
  constructor
  · simp [submitOutcome]
  · simp only [submitOutcome, beq_iff_eq]
    rw [List.getD_eq_getElem choices "" hsel, List.getD_eq_getElem choices "" hci]
    exact (List.Nodup.getElem_inj_iff hnd).symm

/-- Witness for C7 (amended) at a concrete input. -/
theorem submitOutcome_isCorrect_iff_text_witness :
    ((submitOutcome ["a", "b"] (some "b") 1).isCorrect = true ↔
      (submitOutcome ["a", "b"] (some "b") 1).chosenText =
        (submitOutcome ["a", "b"] (some "b") 1).correctText) :=
  (submitOutcome_isCorrect_iff_text ["a", "b"] (some "b") 1 (by decide)
    (by decide)).2

/-! ## Claim C10 — the CSV export keeps the last record per (question, reviewer) -/

/-- Reading one reviewer's cell out of the inner per-question object after the
grouping loop: the **last** matching record wins, since each assignment
overwrites. -/
theorem aget_foldAset (m : List Enriched)
    (st : List (String × (String × Bool))) (reviewer : String) :
    aget (m.foldl
        (fun inner e => aset inner e.1.reviewer_name (e.1.answer, e.1.is_correct))
        st) reviewer =
      match (m.filter (fun e => e.1.reviewer_name == reviewer)).getLast? with
      | some e => some (e.1.answer, e.1.is_correct)
      | none => aget st reviewer := by
  induction m generalizing st with
  | nil => rfl
  | cons e es ih =>
      rw [List.foldl_cons, ih, List.filter_cons]
      by_cases he : e.1.reviewer_name == reviewer
      · have hr : e.1.reviewer_name = reviewer := by
          exact beq_iff_eq.mp he
        rw [if_pos he]
        cases hfe : es.filter (fun x => x.1.reviewer_name == reviewer) with
        | nil =>
            show aget (aset st e.1.reviewer_name (e.1.answer, e.1.is_correct))
                reviewer = some (e.1.answer, e.1.is_correct)
            rw [hr]
            exact aget_aset_self st reviewer _
        | cons y ys =>
            cases hz : (y :: ys).getLast? with
            | none => simp at hz
            | some z => rw [List.getLast?_cons_cons, hz]
      · have hr : ¬ reviewer = e.1.reviewer_name := by
          intro hc
          exact he (beq_iff_eq.mpr hc.symm)
        rw [if_neg he, aget_aset_ne st e.1.reviewer_name reviewer _ hr]

/-- C10: in `downloadQuestionCSV`'s grouping, the cell for a
`(questionId, reviewer)` pair is exactly the `answer`/`is_correct` of the
**last** matching enriched record in input order (`none`, exported as
`'null'`/`'null'`, when no record matches) — the opposite tie-break from the
first-seen rule of `calculateByReviewer`. -/
theorem downloadQuestionCSV_last_record_wins (l : List Enriched)
    (questionId reviewer : String) :
    lookupCell (buildReviewsByQuestion l) questionId reviewer =
      ((l.filter (fun e => e.1.question_id == questionId &&
          e.1.reviewer_name == reviewer)).getLast?).map
        (fun e => (e.1.answer, e.1.is_correct))
    ∧ csvCells (buildReviewsByQuestion l) questionId reviewer =
      (match (l.filter (fun e => e.1.question_id == questionId &&
            e.1.reviewer_name == reviewer)).getLast? with
        | some e => (escapeCSV e.1.answer, if e.1.is_correct then "true" else "false")
        | none => ("null", "null")) := by
  have hsplit : l.filter (fun e => e.1.question_id == questionId &&
      e.1.reviewer_name == reviewer) =
      (l.filter (fun e => e.1.question_id == questionId)).filter
        (fun e => e.1.reviewer_name == reviewer) := by
    rw [List.filter_filter]
    apply List.filter_congr
    intro e _
    rw [Bool.and_comm]
  have hmain : lookupCell (buildReviewsByQuestion l) questionId reviewer =
      ((l.filter (fun e => e.1.question_id == questionId &&
          e.1.reviewer_name == reviewer)).getLast?).map
        (fun e => (e.1.answer, e.1.is_correct)) := by
    rw [lookupCell, buildReviewsByQuestion, hsplit]
    rw [aget_foldUpd]
    have hagree : l.filter (fun e => decide (e.1.question_id = questionId)) =
        l.filter (fun e => e.1.question_id == questionId) := by
      apply List.filter_congr
      intro e _
      by_cases h : e.1.question_id = questionId
      · simp [h]
      · simp [h]
    by_cases hq : (l.filter (fun e => decide (e.1.question_id = questionId))).isEmpty
    · rw [if_pos hq]
      have : l.filter (fun e => e.1.question_id == questionId) = [] := by
        rw [← hagree]
        exact List.isEmpty_iff.mp hq
      simp [aget, this]
    · rw [if_neg hq]
      simp only [Option.some_bind]
      rw [show (aget ([] : List (String × List (String × (String × Bool))))
          questionId).getD [] = [] from rfl]
      rw [hagree, aget_foldAset]
      cases hfe : ((l.filter (fun e => e.1.question_id == questionId)).filter
          (fun e => e.1.reviewer_name == reviewer)).getLast? with
      | none => simp [aget]
      | some e => simp
  refine ⟨hmain, ?_⟩
  rw [csvCells, hmain]
  cases (l.filter (fun e => e.1.question_id == questionId &&
      e.1.reviewer_name == reviewer)).getLast? with
  | none => rfl
  | some e => rfl

/-! ## Claim C1 — by-reviewer statistics dedup by first-seen question -/

/-- The records that survive the per-reviewer dedup: the first record per
`question_id` in input order, given that the ids in `seen` were already
encountered. -/
def firstSeenAux : List String → List Enriched → List Enriched
  | _, [] => []
  | seen, e :: es =>
      if e.1.question_id ∈ seen then firstSeenAux seen es
      else e :: firstSeenAux (e.1.question_id :: seen) es

/-- The first record per `question_id`, in input order. -/
def firstSeen (l : List Enriched) : List Enriched := firstSeenAux [] l

/-- The question ids of the surviving records are exactly the fresh keys in
first-occurrence order. -/
theorem map_qid_firstSeenAux (seen : List String) (l : List Enriched) :
    (firstSeenAux seen l).map (fun e => e.1.question_id) =
      dedupNew (fun e => e.1.question_id) seen l := by
  induction l generalizing seen with
  | nil => rfl
  | cons e es ih =>
      by_cases hm : e.1.question_id ∈ seen
      · simp only [firstSeenAux, dedupNew, if_pos hm]
        exact ih seen
      · simp only [firstSeenAux, dedupNew, if_neg hm, List.map_cons]
        rw [ih]

/-- Each surviving record is the first record of its question id. -/
theorem firstSeenAux_find? (l : List Enriched) :
    ∀ (seen : List String) (e : Enriched), e ∈ firstSeenAux seen l →
      l.find? (fun x => x.1.question_id == e.1.question_id) = some e := by
  induction l with
  | nil => intro seen e he; simp [firstSeenAux] at he
  | cons x xs ih =>
      intro seen e he
      by_cases hm : x.1.question_id ∈ seen
      · rw [firstSeenAux, if_pos hm] at he
        have hfresh : e.1.question_id ∉ seen := by
          have hq : e.1.question_id ∈
              (firstSeenAux seen xs).map (fun f => f.1.question_id) :=
            List.mem_map.mpr ⟨e, he, rfl⟩
          rw [map_qid_firstSeenAux] at hq
          exact ((mem_dedupNew _ seen _ _).mp hq).2
        have hne : ¬ (x.1.question_id == e.1.question_id) = true := by
          rw [beq_iff_eq]
          intro hcx
          exact hfresh (hcx ▸ hm)
        exact (List.find?_cons_of_neg xs hne).trans (ih seen e he)
      · rw [firstSeenAux, if_neg hm] at he
        rcases List.mem_cons.mp he with rfl | he'
        · exact List.find?_cons_of_pos xs (by simp)
        · have hfresh : e.1.question_id ∉ x.1.question_id :: seen := by
            intro hsc
            have hq : e.1.question_id ∈
                (firstSeenAux (x.1.question_id :: seen) xs).map
                  (fun f => f.1.question_id) :=
              List.mem_map.mpr ⟨e, he', rfl⟩
            rw [map_qid_firstSeenAux] at hq
            exact ((mem_dedupNew _ _ _ _).mp hq).2 hsc
          have hne : ¬ (x.1.question_id == e.1.question_id) = true := by
            rw [beq_iff_eq]
            intro hcx
            exact hfresh (hcx ▸ List.mem_cons_self _ _)
          exact (List.find?_cons_of_neg xs hne).trans
            (ih (x.1.question_id :: seen) e he')

/-- Folding `calculateByReviewer`'s loop body over a single reviewer's records:
`total` counts the surviving (first-seen) records, `correct` the surviving
correct ones. -/
theorem bfold (m : List Enriched) :
    ∀ (c t : Nat) (u : List String),
      (m.foldl (fun s e => bupd e s) ⟨c, t, u⟩).correct =
        c + (firstSeenAux u m).countP (fun e => e.1.is_correct)
      ∧ (m.foldl (fun s e => bupd e s) ⟨c, t, u⟩).total =
        t + (firstSeenAux u m).length := by
  induction m with
  | nil => intro c t u; simp [firstSeenAux]
  | cons e es ih =>
      intro c t u
      by_cases hm : e.1.question_id ∈ u
      · rw [List.foldl_cons]
        rw [show bupd e ⟨c, t, u⟩ = ⟨c, t, u⟩ from by rw [bupd, if_pos hm]]
        rw [firstSeenAux, if_pos hm]
        exact ih c t u
      · rw [List.foldl_cons]
        rw [show bupd e ⟨c, t, u⟩ =
            ⟨c + (if e.1.is_correct then 1 else 0), t + 1,
              e.1.question_id :: u⟩ from by rw [bupd, if_neg hm]]
        rw [firstSeenAux, if_neg hm]
        obtain ⟨hc, ht⟩ := ih (c + (if e.1.is_correct then 1 else 0)) (t + 1)
          (e.1.question_id :: u)
        refine ⟨?_, ?_⟩
        · rw [hc, List.countP_cons]
          by_cases hcor : e.1.is_correct
          · simp [hcor]
            omega
          · simp [hcor]
        · rw [ht, List.length_cons]
          omega

/-- The `total` field of a reviewer's by-reviewer row (0 when absent). -/
def reviewerTotal (stats : List (String × RStat)) (reviewer : String) : Nat :=
  ((aget stats reviewer).map (fun s => s.total)).getD 0

/-- The `correct` field of a reviewer's by-reviewer row (0 when absent). -/
def reviewerCorrect (stats : List (String × RStat)) (reviewer : String) : Nat :=
  ((aget stats reviewer).map (fun s => s.correct)).getD 0

/-- C1: `calculateByReviewer` counts, for each reviewer, each distinct
`(reviewer, question_id)` pair exactly once: its `total` is the number of
surviving first-seen records of that reviewer (whose question ids are
pairwise distinct and cover exactly the distinct ids the reviewer answered),
its `correct` counts the surviving records that are correct, and every
surviving record is the **first** record for its question id in input order.
A reviewer has a row exactly when some record mentions them. -/
theorem calculateByReviewer_first_seen (l : List Enriched) (reviewer : String) :
    reviewerTotal (calculateByReviewer l) reviewer =
      (firstSeen (l.filter (fun e => e.1.reviewer_name = reviewer))).length
    ∧ reviewerCorrect (calculateByReviewer l) reviewer =
      (firstSeen (l.filter (fun e => e.1.reviewer_name = reviewer))).countP
        (fun e => e.1.is_correct)
    ∧ ((firstSeen (l.filter (fun e => e.1.reviewer_name = reviewer))).map
        (fun e => e.1.question_id)).Nodup
    ∧ (∀ q, q ∈ (firstSeen (l.filter
          (fun e => e.1.reviewer_name = reviewer))).map
          (fun e => e.1.question_id) ↔
        q ∈ (l.filter (fun e => e.1.reviewer_name = reviewer)).map
          (fun e => e.1.question_id))
    ∧ (∀ e ∈ firstSeen (l.filter (fun e => e.1.reviewer_name = reviewer)),
        (l.filter (fun e => e.1.reviewer_name = reviewer)).find?
          (fun x => x.1.question_id == e.1.question_id) = some e)
    ∧ (aget (calculateByReviewer l) reviewer = none ↔
        l.filter (fun e => e.1.reviewer_name = reviewer) = []) := by
  have hnodup : ((firstSeen (l.filter
      (fun e => e.1.reviewer_name = reviewer))).map
      (fun e => e.1.question_id)).Nodup := by
    rw [firstSeen, map_qid_firstSeenAux]
    exact (dedupNew_nodup _ [] _).1
  have hmem : ∀ q, q ∈ (firstSeen (l.filter
      (fun e => e.1.reviewer_name = reviewer))).map (fun e => e.1.question_id) ↔
      q ∈ (l.filter (fun e => e.1.reviewer_name = reviewer)).map
        (fun e => e.1.question_id) := by
    intro q
    rw [firstSeen, map_qid_firstSeenAux, mem_dedupNew]
    simp
  have hget : aget (calculateByReviewer l) reviewer =
      (aget (foldUpd (fun e => e.1.reviewer_name) ⟨0, 0, []⟩ bupd [] l)
          reviewer).map
        (fun s =>
          (⟨s.correct, s.total,
            if s.total > 0 then
              jsToFixed1 ((s.correct : ℚ) / (s.total : ℚ) * 100)
            else 0⟩ : RStat)) := by
    rw [calculateByReviewer]
    exact aget_map_value _
      (fun s : BStat => (⟨s.correct, s.total,
        if s.total > 0 then jsToFixed1 ((s.correct : ℚ) / (s.total : ℚ) * 100)
        else 0⟩ : RStat)) reviewer
  rw [aget_foldUpd] at hget
  by_cases hemp : (l.filter (fun e => e.1.reviewer_name = reviewer)).isEmpty
  · have hnil : l.filter (fun e => e.1.reviewer_name = reviewer) = [] :=
      List.isEmpty_iff.mp hemp
    rw [if_pos hemp] at hget
    refine ⟨?_, ?_, hnodup, hmem, ?_, ?_⟩
    · rw [reviewerTotal, hget, hnil]
      rfl
    · rw [reviewerCorrect, hget, hnil]
      rfl
    · rw [hnil]
      intro e he
      simp [firstSeen, firstSeenAux] at he
    · rw [hget, hnil]
      simp [aget]
  · have hnil : l.filter (fun e => e.1.reviewer_name = reviewer) ≠ [] := by
      intro hc
      rw [hc] at hemp
      exact hemp rfl
    rw [if_neg hemp] at hget
    rw [show ((aget ([] : List (String × BStat)) reviewer).getD ⟨0, 0, []⟩) =
        (⟨0, 0, []⟩ : BStat) from rfl] at hget
    obtain ⟨hcor, htot⟩ :=
      bfold (l.filter (fun e => e.1.reviewer_name = reviewer)) 0 0 []
    refine ⟨?_, ?_, hnodup, hmem,
      fun e he => firstSeenAux_find? _ [] e he, ?_⟩
    · rw [reviewerTotal, hget]
      simp only [Option.map_some', Option.getD_some]
      rw [show (firstSeen (l.filter (fun e => e.1.reviewer_name = reviewer))) =
        firstSeenAux [] (l.filter (fun e => e.1.reviewer_name = reviewer)) from
        rfl]
      rw [← Nat.zero_add ((firstSeenAux []
        (l.filter (fun e => e.1.reviewer_name = reviewer))).length)]
      exact htot
    · rw [reviewerCorrect, hget]
      simp only [Option.map_some', Option.getD_some]
      rw [show (firstSeen (l.filter (fun e => e.1.reviewer_name = reviewer))) =
        firstSeenAux [] (l.filter (fun e => e.1.reviewer_name = reviewer)) from
        rfl]
      rw [← Nat.zero_add ((firstSeenAux []
        (l.filter (fun e => e.1.reviewer_name = reviewer))).countP
          (fun e => e.1.is_correct))]
      exact hcor
    · rw [hget]
      simp [hnil]

/-- Witness for C1 at a concrete input. -/
theorem calculateByReviewer_first_seen_witness :
    reviewerTotal (calculateByReviewer [(cexRecord, cexQuestion)]) "alice" = 1 := by
  have h := calculateByReviewer_first_seen [(cexRecord, cexQuestion)] "alice"
  rw [h.1]
  decide

/-! ## Claim C6 — by-question rows, accuracy, sort and stability -/

/-- Folding `calculateByQuestion`'s loop body: every record of the group
counts. -/
theorem qfold (m : List Enriched) :
    ∀ (qr : Option Question) (c t : Nat),
      (m.foldl (fun s e => qupd e s) ⟨qr, c, t⟩).correct =
        c + m.countP (fun e => e.1.is_correct)
      ∧ (m.foldl (fun s e => qupd e s) ⟨qr, c, t⟩).total = t + m.length := by
  induction m with
  | nil => intro qr c t; simp
  | cons e es ih =>
      intro qr c t
      rw [List.foldl_cons]
      obtain ⟨h1, h2⟩ := ih (qr <|> some e.2)
        (c + (if e.1.is_correct then 1 else 0)) (t + 1)
      refine ⟨?_, ?_⟩
      · rw [show qupd e ⟨qr, c, t⟩ = ⟨qr <|> some e.2,
          c + (if e.1.is_correct then 1 else 0), t + 1⟩ from rfl]
        rw [h1, List.countP_cons]
        by_cases hcor : e.1.is_correct
        · simp [hcor]
          omega
        · simp [hcor]
      · rw [show qupd e ⟨qr, c, t⟩ = ⟨qr <|> some e.2,
          c + (if e.1.is_correct then 1 else 0), t + 1⟩ from rfl]
        rw [h2, List.length_cons]
        omega

/-- In a duplicate-free list, counting the occurrences of one element gives
one or zero according to membership. -/
theorem countP_eq_ite_of_nodup (ks : List String) (hnd : ks.Nodup) (q : String) :
    ks.countP (fun k => k = q) = if q ∈ ks then 1 else 0 := by
  induction ks with
  | nil => simp
  | cons k rest ih =>
      simp only [List.nodup_cons] at hnd
      rw [List.countP_cons, ih hnd.2]
      by_cases hk : k = q
      · have hqr : q ∉ rest := fun hc => hnd.1 (hk.symm ▸ hc)
        rw [if_neg hqr]
        simp [List.mem_cons, hk]
      · simp only [List.mem_cons]
        by_cases hq : q ∈ rest
        · simp [hq, hk]
        · simp [hq, hk, Ne.symm hk]

/-- Every by-question row keyed by `q` carries the counts of the records of
question `q`, and its accuracy is their ratio to one decimal. -/
theorem questionGroups_spec (l : List Enriched) :
    ∀ s ∈ questionGroups l,
      s.total = (l.filter (fun e => e.1.question_id = s.questionId)).length
      ∧ s.correct = (l.filter
          (fun e => e.1.question_id = s.questionId)).countP
          (fun e => e.1.is_correct)
      ∧ 0 < s.total
      ∧ s.accuracy = jsToFixed1 ((s.correct : ℚ) / (s.total : ℚ) * 100) := by
  intro s hs
  rw [questionGroups] at hs
  obtain ⟨⟨k, v⟩, hkv, rfl⟩ := List.mem_map.mp hs
  have hnd : ((foldUpd (fun e => e.1.question_id) ⟨none, 0, 0⟩ qupd [] l).map
      Prod.fst).Nodup := by
    rw [keys_foldUpd]
    exact (dedupNew_nodup _ [] _).1
  have hget := aget_eq_of_mem_of_nodup _ k v hnd hkv
  rw [aget_foldUpd] at hget
  by_cases hemp : (l.filter (fun e => e.1.question_id = k)).isEmpty
  · rw [if_pos hemp] at hget
    exact absurd hget (by simp [aget])
  · rw [if_neg hemp] at hget
    have hv : v = (l.filter (fun e => e.1.question_id = k)).foldl
        (fun s e => qupd e s) ⟨none, 0, 0⟩ := by
      rw [show ((aget ([] : List (String × QAcc)) k).getD ⟨none, 0, 0⟩) =
          (⟨none, 0, 0⟩ : QAcc) from rfl] at hget
      exact (Option.some_injective _ hget).symm
    obtain ⟨hc, ht⟩ := qfold (l.filter (fun e => e.1.question_id = k)) none 0 0
    have hne : l.filter (fun e => e.1.question_id = k) ≠ [] := by
      intro hcnil
      rw [hcnil] at hemp
      exact hemp rfl
    have hlen : 0 < (l.filter (fun e => e.1.question_id = k)).length :=
      List.length_pos.mpr hne
    refine ⟨?_, ?_, ?_, ?_⟩
    · show v.total = (l.filter (fun e => e.1.question_id = k)).length
      rw [hv, ht]
      omega
    · show v.correct = (l.filter (fun e => e.1.question_id = k)).countP
        (fun e => e.1.is_correct)
      rw [hv, hc]
      omega
    · show 0 < v.total
      rw [hv, ht]
      omega
    · show (if v.total > 0 then
          jsToFixed1 ((v.correct : ℚ) / (v.total : ℚ) * 100) else 0) =
        jsToFixed1 ((v.correct : ℚ) / (v.total : ℚ) * 100)
      have hpos : 0 < v.total := by
        rw [hv, ht]
        omega
      rw [if_pos hpos]

/-- Filtering one accuracy class through an ordered insert: an element of the
class is inserted in front of the class's earlier elements never, behind them
always. -/
theorem filter_orderedInsert_acc (v : ℚ) (x : QStat) (l : List QStat) :
    (List.orderedInsert qleAccuracy x l).filter (fun s => s.accuracy = v) =
      if x.accuracy = v then x :: l.filter (fun s => s.accuracy = v)
      else l.filter (fun s => s.accuracy = v) := by
  induction l with
  | nil =>
      rw [List.orderedInsert, List.filter_cons]
      by_cases hx : x.accuracy = v
      · simp [hx]
      · simp [hx]
  | cons y ys ih =>
      rw [List.orderedInsert]
      by_cases hle : qleAccuracy x y
      · rw [if_pos hle, List.filter_cons, List.filter_cons]
        by_cases hx : x.accuracy = v
        · simp [hx]
        · simp [hx]
      · rw [if_neg hle, List.filter_cons, ih]
        by_cases hy : y.accuracy = v
        · have hx : ¬ x.accuracy = v := by
            intro hc
            exact hle (le_of_eq (hc.trans hy.symm))
          simp [hy, hx]
        · by_cases hx : x.accuracy = v
          · simp [hy, hx]
          · simp [hy, hx]

/-- Stability of the by-question sort: inside one accuracy class the sorted
order is the original grouping order. -/
theorem filter_insertionSort_acc (v : ℚ) (l : List QStat) :
    (l.insertionSort qleAccuracy).filter (fun s => s.accuracy = v) =
      l.filter (fun s => s.accuracy = v) := by
  induction l with
  | nil => rfl
  | cons x xs ih =>
      rw [List.insertionSort, filter_orderedInsert_acc, List.filter_cons]
      by_cases hx : x.accuracy = v
      · simp only [hx, if_pos rfl, ih]
        simp
      · simp only [if_neg hx, ih]
        simp [hx]

/-- C6: `calculateByQuestion` is sorted ascending by accuracy; it is a
permutation of the grouped rows and coincides with them on every accuracy
class (the stable tie-break); each question with at least one record has
exactly one row (and one with none has no row); and each row's counts and
one-decimal accuracy are those of the question's records. -/
theorem calculateByQuestion_sorted_stable (l : List Enriched) :
    List.Pairwise qleAccuracy (calculateByQuestion l)
    ∧ List.Perm (calculateByQuestion l) (questionGroups l)
    ∧ (∀ v : ℚ, (calculateByQuestion l).filter (fun s => s.accuracy = v) =
        (questionGroups l).filter (fun s => s.accuracy = v))
    ∧ (∀ q : String, (calculateByQuestion l).countP (fun s => s.questionId = q) =
        if q ∈ l.map (fun e => e.1.question_id) then 1 else 0)
    ∧ (∀ s ∈ calculateByQuestion l,
        s.total = (l.filter (fun e => e.1.question_id = s.questionId)).length
        ∧ s.correct = (l.filter
            (fun e => e.1.question_id = s.questionId)).countP
            (fun e => e.1.is_correct)
        ∧ 0 < s.total
        ∧ s.accuracy = jsToFixed1 ((s.correct : ℚ) / (s.total : ℚ) * 100)) := by
  have hperm : List.Perm (calculateByQuestion l) (questionGroups l) :=
    List.perm_insertionSort qleAccuracy (questionGroups l)
  refine ⟨List.sorted_insertionSort qleAccuracy (questionGroups l), hperm,
    fun v => filter_insertionSort_acc v (questionGroups l), ?_, ?_⟩
  · intro q
    rw [hperm.countP_eq]
    have hkeys : (questionGroups l).map (fun s => s.questionId) =
        dedupNew (fun e => e.1.question_id) [] l := by
      rw [questionGroups, List.map_map]
      have : ((foldUpd (fun e => e.1.question_id) ⟨none, 0, 0⟩ qupd [] l).map
          Prod.fst) = dedupNew (fun e => e.1.question_id) [] l := by
        rw [keys_foldUpd]
        rfl
      rw [← this]
      rfl
    have hcnt : (questionGroups l).countP (fun s => s.questionId = q) =
        ((questionGroups l).map (fun s => s.questionId)).countP
          (fun k => k = q) := by
      rw [List.countP_map]
      rfl
    rw [hcnt, hkeys,
      countP_eq_ite_of_nodup _ ((dedupNew_nodup _ [] _).1) q]
    have hmem : q ∈ dedupNew (fun e => e.1.question_id) [] l ↔
        q ∈ l.map (fun e => e.1.question_id) := by
      rw [mem_dedupNew]
      simp
    by_cases hq : q ∈ l.map (fun e => e.1.question_id)
    · rw [if_pos (hmem.mpr hq), if_pos hq]
    · rw [if_neg (fun hc => hq (hmem.mp hc)), if_neg hq]
  · intro s hs
    exact questionGroups_spec l s (hperm.mem_iff.mp hs)

/-- Witness for C6 at a concrete input. -/
theorem calculateByQuestion_sorted_stable_witness :
    (calculateByQuestion [(cexRecord, cexQuestion)]).countP
      (fun s => s.questionId = "q9") = 1 := by
  have h := calculateByQuestion_sorted_stable [(cexRecord, cexQuestion)]
  rw [h.2.2.2.1 "q9"]
  decide

/-! ## Claim C5 — by-author accuracy-of-accuracies -/

/-- A `foldUpd` loop is the left fold of its body. -/
theorem foldUpd_eq_foldl {A V : Type} (key : A → String) (d : V)
    (g : A → V → V) (st : List (String × V)) (l : List A) :
    foldUpd key d g st l =
      l.foldl (fun st x => updAdd st (key x) d (g x)) st := by
  induction l generalizing st with
  | nil => rfl
  | cons x xs ih => rw [foldUpd, List.foldl_cons, ih]

/-- `updAdd` never produces the empty dictionary. -/
theorem updAdd_ne_nil {V : Type} (st : List (String × V)) (k : String) (d : V)
    (g : V → V) : updAdd st k d g ≠ [] := by
  cases st with
  | nil => simp [updAdd]
  | cons p rest =>
      rw [updAdd]
      by_cases h : p.1 = k
      · simp [h]
      · simp [h]

/-- Every entry of `updAdd st k d g` is an old entry or carries a `g`-image. -/
theorem mem_updAdd {V : Type} (st : List (String × V)) (k : String) (d : V)
    (g : V → V) (p : String × V) (hp : p ∈ updAdd st k d g) :
    p ∈ st ∨ ∃ v, p = (k, g v) := by
  induction st with
  | nil =>
      rw [updAdd] at hp
      rcases List.mem_singleton.mp hp with rfl
      exact Or.inr ⟨d, rfl⟩
  | cons q rest ih =>
      rw [updAdd] at hp
      by_cases h : q.1 = k
      · rw [if_pos h] at hp
        rcases List.mem_cons.mp hp with rfl | hp'
        · exact Or.inr ⟨q.2, by rw [h]⟩
        · exact Or.inl (List.mem_cons_of_mem _ hp')
      · rw [if_neg h] at hp
        rcases List.mem_cons.mp hp with rfl | hp'
        · exact Or.inl (List.mem_cons_self _ _)
        · rcases ih hp' with h1 | h2
          · exact Or.inl (List.mem_cons_of_mem _ h1)
          · exact Or.inr h2

/-- A value predicate preserved by the loop body holds of every entry produced
by a `foldUpd` loop. -/
theorem foldUpd_values {A V : Type} (key : A → String) (d : V) (g : A → V → V)
    (P : V → Prop) (hg : ∀ x v, P (g x v)) (l : List A) :
    ∀ (st : List (String × V)), (∀ p ∈ st, P p.2) →
      ∀ p ∈ foldUpd key d g st l, P p.2 := by
  induction l with
  | nil => intro st hst p hp; exact hst p hp
  | cons x xs ih =>
      intro st hst p hp
      rw [foldUpd] at hp
      refine ih (updAdd st (key x) d (g x)) ?_ p hp
      intro q hq
      rcases mem_updAdd st (key x) d (g x) q hq with h1 | ⟨v, rfl⟩
      · exact hst q h1
      · exact hg x v

/-- Folding the `(author, reviewer)` cell update: plain counting. -/
theorem ctfold (m : List Enriched) :
    ∀ (c t : Nat),
      m.foldl (fun s e => ctupd e s) ⟨c, t⟩ =
        ⟨c + m.countP (fun e => e.1.is_correct), t + m.length⟩ := by
  induction m with
  | nil => intro c t; simp
  | cons e es ih =>
      intro c t
      rw [List.foldl_cons,
        show ctupd e ⟨c, t⟩ =
          ⟨c + (if e.1.is_correct then 1 else 0), t + 1⟩ from rfl,
        ih, List.countP_cons, List.length_cons]
      simp only [CT.mk.injEq]
      by_cases hcor : e.1.is_correct
      · simp only [if_pos hcor]
        exact ⟨by omega, by omega⟩
      · simp only [if_neg hcor]
        exact ⟨by omega, by omega⟩

/-- A dictionary with duplicate-free keys is the list of its key/value
pairs, read back through `aget`. -/
theorem assoc_eq_keys_map {V : Type} (d : V) :
    ∀ (st : List (String × V)), (st.map Prod.fst).Nodup →
      st = (st.map Prod.fst).map (fun k => (k, (aget st k).getD d)) := by
  intro st
  induction st with
  | nil => intro _; rfl
  | cons p rest ih =>
      intro hnd
      simp only [List.map_cons, List.nodup_cons] at hnd
      obtain ⟨k0, v0⟩ := p
      simp only [List.map_cons]
      rw [show aget ((k0, v0) :: rest) k0 = some v0 from by simp [aget]]
      have htail : ((rest.map Prod.fst).map
          (fun k => (k, (aget ((k0, v0) :: rest) k).getD d))) =
          ((rest.map Prod.fst).map (fun k => (k, (aget rest k).getD d))) := by
        apply List.map_congr_left
        intro k hk
        have hne : ¬ k0 = k := by
          intro hc
          exact hnd.1 (hc ▸ hk)
        rw [show aget ((k0, v0) :: rest) k = aget rest k from by
          simp [aget, hne]]
      rw [htail, Option.getD_some, ← ih hnd.2]

/-- The author records selected by the nested grouping of `calculateByAuthor`,
for a valid author name, are exactly the enriched records authored by them. -/
theorem filter_author (l : List Enriched) (a : String)
    (ha : authorOk (some a) = true) :
    (l.filter (fun e => authorOk e.2.authored_by)).filter
        (fun e => (e.2.authored_by).getD "" = a) =
      l.filter (fun e => e.2.authored_by = some a) := by
  rw [List.filter_filter]
  apply List.filter_congr
  intro e _
  cases hab : e.2.authored_by with
  | none => simp [authorOk]
  | some b =>
      by_cases hb : b = a
      · subst hb
        simp [ha]
      · simp [authorOk, hb]

/-- For an invalid author name (falsy or `"Unknown"`), no record is grouped
under it at all. -/
theorem filter_author_invalid (l : List Enriched) (a : String)
    (ha : authorOk (some a) = false) :
    (l.filter (fun e => authorOk e.2.authored_by)).filter
        (fun e => (e.2.authored_by).getD "" = a) = [] := by
  rw [List.filter_eq_nil_iff]
  intro e he
  rcases List.mem_filter.mp he with ⟨_, hok⟩
  cases hab : e.2.authored_by with
  | none => simp [hab, authorOk] at hok
  | some b =>
      rw [hab] at hok
      intro hc
      simp only [hab, Option.getD_some] at hc
      rw [of_decide_eq_true hc] at hok
      rw [hok] at ha
      exact absurd ha (by simp)

/-- The enriched records authored by `a` (the claim's "that author's
records"). -/
def authorRecords (l : List Enriched) (a : String) : List Enriched :=
  l.filter (fun e => e.2.authored_by = some a)

/-- The distinct reviewers of author `a`'s records, in first-occurrence
order. -/
def authorReviewers (l : List Enriched) (a : String) : List String :=
  dedupNew (fun e => e.1.reviewer_name) [] (authorRecords l a)

/-- One reviewer's raw (unrounded) accuracy over a record set:
`correct / total * 100`. -/
def reviewerRawAccuracy (recs : List Enriched) (rev : String) : ℚ :=
  if 0 < (recs.filter (fun e => e.1.reviewer_name = rev)).length then
    (((recs.filter (fun e => e.1.reviewer_name = rev)).countP
        (fun e => e.1.is_correct) : ℚ) /
      ((recs.filter (fun e => e.1.reviewer_name = rev)).length : ℚ)) * 100
  else 0

/-- Key read of a dictionary whose values were rewritten with access to the
key. -/
theorem aget_map_keyed {V W : Type} (st : List (String × V))
    (f : String → V → W) (k : String) :
    aget (st.map (fun p => (p.1, f p.1 p.2))) k = (aget st k).map (f k) := by
  induction st with
  | nil => simp [aget]
  | cons p rest ih =>
      by_cases h : p.1 = k
      · simp [aget, h]
      · simp [aget, h, ih]

/-- C5: an author has a by-author row exactly when their name is valid (truthy
and not `"Unknown"`) and some enriched record is authored by them — records
with an absent or `"Unknown"` author are excluded entirely.  The row's
`questionCount` counts the author's questions in the full catalog, its
`reviewerCount` the distinct reviewers of the author's records, and its
headline accuracy is the mean of those reviewers' raw per-reviewer accuracies
over the author's records, to one decimal — an accuracy of accuracies, not a
pooled ratio. -/
theorem calculateByAuthor_accuracy_of_accuracies (questions : List Question)
    (l : List Enriched) (a : String) :
    (aget (calculateByAuthor questions l) a = none ↔
      (authorOk (some a) = false ∨ authorRecords l a = []))
    ∧ (∀ s, aget (calculateByAuthor questions l) a = some s →
        s.questionCount =
          (questions.filter (fun q => q.authored_by == some a)).length
        ∧ s.reviewerCount = (authorReviewers l a).length
        ∧ s.accuracy = jsToFixed1
            (((authorReviewers l a).map
                (reviewerRawAccuracy (authorRecords l a))).sum /
              ((authorReviewers l a).length : ℚ))) := by
  have hfil_eq : ((foldUpd (fun e : Enriched => (e.2.authored_by).getD "")
      ([] : List (String × CT))
      (fun e inner => updAdd inner e.1.reviewer_name ⟨0, 0⟩ (ctupd e)) []
      (l.filter (fun e => authorOk e.2.authored_by))).filter
        (fun p => !p.2.isEmpty)) =
      (foldUpd (fun e : Enriched => (e.2.authored_by).getD "")
      ([] : List (String × CT))
      (fun e inner => updAdd inner e.1.reviewer_name ⟨0, 0⟩ (ctupd e)) []
      (l.filter (fun e => authorOk e.2.authored_by))) := by
    apply List.filter_eq_self.mpr
    intro p hp
    have hne : p.2 ≠ [] :=
      foldUpd_values _ _ _ (fun v => v ≠ [])
        (fun x v => updAdd_ne_nil _ _ _ _) _ [] (by simp) p hp
    cases hb : p.2.isEmpty with
    | true => exact absurd (List.isEmpty_iff.mp hb) hne
    | false => rfl
  have hmap : calculateByAuthor questions l =
      (foldUpd (fun e : Enriched => (e.2.authored_by).getD "")
        ([] : List (String × CT))
        (fun e inner => updAdd inner e.1.reviewer_name ⟨0, 0⟩ (ctupd e)) []
        (l.filter (fun e => authorOk e.2.authored_by))).map
        (fun p => (p.1,
          (⟨(questions.filter (fun q => q.authored_by == some p.1)).length,
            jsToFixed1 (((p.2.map (fun c => ctAccuracy c.2)).sum) /
              (p.2.length : ℚ)),
            p.2.length⟩ : AuthorStat))) := by
    rw [calculateByAuthor]
    rw [hfil_eq]
  have hget : aget (calculateByAuthor questions l) a =
      (aget (foldUpd (fun e : Enriched => (e.2.authored_by).getD "")
          ([] : List (String × CT))
          (fun e inner => updAdd inner e.1.reviewer_name ⟨0, 0⟩ (ctupd e)) []
          (l.filter (fun e => authorOk e.2.authored_by))) a).map
        (fun inner =>
          (⟨(questions.filter (fun q => q.authored_by == some a)).length,
            jsToFixed1 (((inner.map (fun c => ctAccuracy c.2)).sum) /
              (inner.length : ℚ)),
            inner.length⟩ : AuthorStat)) := by
    rw [hmap]
    exact aget_map_keyed _
      (fun (k : String) (inner : List (String × CT)) =>
        (⟨(questions.filter (fun q => q.authored_by == some k)).length,
          jsToFixed1 (((inner.map (fun c => ctAccuracy c.2)).sum) /
            (inner.length : ℚ)),
          inner.length⟩ : AuthorStat)) a
  rw [aget_foldUpd] at hget
  by_cases ha : authorOk (some a) = true
  · by_cases hrec : authorRecords l a = []
    · have hempty : ((l.filter (fun e => authorOk e.2.authored_by)).filter
          (fun e => (e.2.authored_by).getD "" = a)).isEmpty = true := by
        rw [filter_author l a ha]
        rw [authorRecords] at hrec
        rw [hrec]
        rfl
      rw [if_pos hempty] at hget
      refine ⟨?_, ?_⟩
      · rw [hget]
        simp [aget, hrec]
      · intro s hs
        rw [hget] at hs
        exact absurd hs (by simp [aget])
    · have hne' : ((l.filter (fun e => authorOk e.2.authored_by)).filter
          (fun e => (e.2.authored_by).getD "" = a)) = authorRecords l a :=
        filter_author l a ha
      have hnonempty : ¬ ((l.filter (fun e => authorOk e.2.authored_by)).filter
          (fun e => (e.2.authored_by).getD "" = a)).isEmpty = true := by
        rw [hne']
        intro hc
        exact hrec (List.isEmpty_iff.mp hc)
      rw [if_neg hnonempty] at hget
      have hinner : ((l.filter (fun e => authorOk e.2.authored_by)).filter
          (fun x => (x.2.authored_by).getD "" = a)).foldl
            (fun v x => updAdd v x.1.reviewer_name ⟨0, 0⟩ (ctupd x))
            ((aget ([] : List (String × List (String × CT))) a).getD []) =
          foldUpd (fun e : Enriched => e.1.reviewer_name) ⟨0, 0⟩ ctupd []
            (authorRecords l a) := by
        rw [show ((aget ([] : List (String × List (String × CT))) a).getD []) =
          ([] : List (String × CT)) from rfl]
        rw [hne', foldUpd_eq_foldl]
      rw [hinner] at hget
      have hkeys : (foldUpd (fun e : Enriched => e.1.reviewer_name) ⟨0, 0⟩
          ctupd [] (authorRecords l a)).map Prod.fst = authorReviewers l a := by
        rw [keys_foldUpd]
        rfl
      have hndk : ((foldUpd (fun e : Enriched => e.1.reviewer_name) ⟨0, 0⟩
          ctupd [] (authorRecords l a)).map Prod.fst).Nodup := by
        rw [hkeys]
        exact (dedupNew_nodup _ [] _).1
      have hlen : (foldUpd (fun e : Enriched => e.1.reviewer_name) ⟨0, 0⟩
          ctupd [] (authorRecords l a)).length = (authorReviewers l a).length := by
        rw [← hkeys, List.length_map]
      have hacc : ((foldUpd (fun e : Enriched => e.1.reviewer_name) ⟨0, 0⟩
          ctupd [] (authorRecords l a)).map (fun c => ctAccuracy c.2)) =
          (authorReviewers l a).map
            (reviewerRawAccuracy (authorRecords l a)) := by
        conv_lhs => rw [assoc_eq_keys_map ⟨0, 0⟩ _ hndk]
        rw [List.map_map, hkeys]
        apply List.map_congr_left
        intro rev hrev
        have hmemrev : rev ∈ (authorRecords l a).map
            (fun e => e.1.reviewer_name) := by
          have := (mem_dedupNew (fun e : Enriched => e.1.reviewer_name) []
            (authorRecords l a) rev).mp hrev
          exact this.1
        have hrrne : (authorRecords l a).filter
            (fun e => e.1.reviewer_name = rev) ≠ [] := by
          obtain ⟨e, he, hre⟩ := List.mem_map.mp hmemrev
          intro hc
          have : e ∈ (authorRecords l a).filter
              (fun e => e.1.reviewer_name = rev) :=
            List.mem_filter.mpr ⟨he, by simp [hre]⟩
          rw [hc] at this
          exact absurd this (List.not_mem_nil e)
        have hrr : ¬ ((authorRecords l a).filter
            (fun x => x.1.reviewer_name = rev)).isEmpty = true := by
          intro hc
          exact hrrne (List.isEmpty_iff.mp hc)
        show ctAccuracy ((aget (foldUpd (fun e : Enriched => e.1.reviewer_name)
            ⟨0, 0⟩ ctupd [] (authorRecords l a)) rev).getD ⟨0, 0⟩) =
          reviewerRawAccuracy (authorRecords l a) rev
        rw [aget_foldUpd, if_neg hrr]
        rw [show ((aget ([] : List (String × CT)) rev).getD ⟨0, 0⟩) =
          (⟨0, 0⟩ : CT) from rfl]
        rw [show (((authorRecords l a).filter
            (fun x => x.1.reviewer_name = rev)).foldl (fun v x => ctupd x v)
            (⟨0, 0⟩ : CT)) =
          (⟨0 + ((authorRecords l a).filter
              (fun x => x.1.reviewer_name = rev)).countP
              (fun e => e.1.is_correct),
            0 + ((authorRecords l a).filter
              (fun x => x.1.reviewer_name = rev)).length⟩ : CT) from
          ctfold _ 0 0]
        rw [ctAccuracy, reviewerRawAccuracy]
        simp only [Nat.zero_add, Option.getD_some]
      refine ⟨?_, ?_⟩
      · rw [hget]
        constructor
        · intro hc
          exact absurd hc (by simp)
        · intro hc
          rcases hc with hc | hc
          · rw [ha] at hc
            exact absurd hc (by simp)
          · exact absurd hc hrec
      · intro s hs
        rw [hget] at hs
        simp only [Option.map_some'] at hs
        have hs' := (Option.some_injective _ hs).symm
        rw [hs']
        refine ⟨rfl, ?_, ?_⟩
        · show (foldUpd (fun e : Enriched => e.1.reviewer_name) ⟨0, 0⟩
            ctupd [] (authorRecords l a)).length = _
          exact hlen
        · show jsToFixed1 _ = _
          rw [hacc, hlen]
  · have ha' : authorOk (some a) = false := by
      cases hb : authorOk (some a) with
      | true => exact absurd hb ha
      | false => rfl
    have hempty : ((l.filter (fun e => authorOk e.2.authored_by)).filter
        (fun e => (e.2.authored_by).getD "" = a)).isEmpty = true := by
      rw [filter_author_invalid l a ha']
      rfl
    rw [if_pos hempty] at hget
    refine ⟨?_, ?_⟩
    · rw [hget]
      simp [aget, ha']
    · intro s hs
      rw [hget] at hs
      exact absurd hs (by simp [aget])

/-- Witness for C5 at a concrete input. -/
theorem calculateByAuthor_accuracy_of_accuracies_witness :
    (aget (calculateByAuthor [cexQuestion] [(cexRecord, cexQuestion)]) "A").map
        (fun s => s.reviewerCount) =
      some ((authorReviewers [(cexRecord, cexQuestion)] "A").length) := by
  cases hval : aget (calculateByAuthor [cexQuestion] [(cexRecord, cexQuestion)])
      "A" with
  | none =>
      rcases (calculateByAuthor_accuracy_of_accuracies [cexQuestion]
          [(cexRecord, cexQuestion)] "A").1.mp hval with h | h
      · exact absurd h (by decide)
      · exact absurd h (by decide)
  | some s =>
      rw [Option.map_some']
      exact congrArg some
        (((calculateByAuthor_accuracy_of_accuracies [cexQuestion]
          [(cexRecord, cexQuestion)] "A").2 s hval).2.1)

/-! ## Claim C4 — the overall statistic and the empty reviewer selection -/

/-- C4: the overall statistic is the arithmetic mean of the by-reviewer
accuracies (to one decimal, like every accuracy of the dashboard) with
`reviewerCount` the number of by-reviewer rows — not a pooled correct/total
ratio; and an empty reviewer selection makes the enriched set and all four
statistic groups empty, with overall `{accuracy: 0, reviewerCount: 0}`. -/
theorem analyzeData_overall_mean_and_empty (questions : List Question)
    (reviews : List ReviewRecord) (selectedReviewers : List String) :
    ((analyzeData questions reviews selectedReviewers).reviewerStats ≠ [] →
      (analyzeData questions reviews selectedReviewers).overall.accuracy =
        jsToFixed1
          ((((analyzeData questions reviews selectedReviewers).reviewerStats.map
              (fun p => p.2.accuracy)).sum) /
            (((analyzeData questions reviews
              selectedReviewers).reviewerStats.length : ℚ)))
      ∧ (analyzeData questions reviews selectedReviewers).overall.reviewerCount =
        (analyzeData questions reviews selectedReviewers).reviewerStats.length)
    ∧ (selectedReviewers = [] →
      (analyzeData questions reviews selectedReviewers).enriched = []
      ∧ (analyzeData questions reviews selectedReviewers).authorStats = []
      ∧ (analyzeData questions reviews selectedReviewers).reviewerStats = []
      ∧ (analyzeData questions reviews selectedReviewers).questionStats = []
      ∧ (analyzeData questions reviews selectedReviewers).overall = ⟨0, 0⟩) := by
  constructor
  · intro hne
    have hov : (analyzeData questions reviews selectedReviewers).overall =
        calculateOverallStats
          ((analyzeData questions reviews selectedReviewers).reviewerStats) := rfl
    rw [hov, calculateOverallStats,
      if_neg (fun hc => hne (List.isEmpty_iff.mp hc))]
    exact ⟨rfl, rfl⟩
  · intro hsel
    subst hsel
    have hfil : (reviews.filter (fun rv => questions.any
        (fun q => q.questionID == rv.question_id))).filter
        (fun rv => ([] : List String).contains rv.reviewer_name) = [] := by
      apply List.filter_eq_nil_iff.mpr
      intro r _
      simp
    have henr : (analyzeData questions reviews []).enriched = [] := by
      show ((reviews.filter (fun rv => questions.any
          (fun q => q.questionID == rv.question_id))).filter
          (fun rv => ([] : List String).contains rv.reviewer_name)).map
          (fun rv => (rv, (questionLookup questions rv.question_id).getD
            ⟨"", "", "", none, [], ""⟩)) = []
      rw [hfil]
      rfl
    have hauth : (analyzeData questions reviews []).authorStats =
        calculateByAuthor questions
          ((analyzeData questions reviews []).enriched) := rfl
    have hrev : (analyzeData questions reviews []).reviewerStats =
        calculateByReviewer ((analyzeData questions reviews []).enriched) := rfl
    have hq : (analyzeData questions reviews []).questionStats =
        calculateByQuestion ((analyzeData questions reviews []).enriched) := rfl
    have hov : (analyzeData questions reviews []).overall =
        calculateOverallStats
          ((analyzeData questions reviews []).reviewerStats) := rfl
    refine ⟨henr, ?_, ?_, ?_, ?_⟩
    · rw [hauth, henr]
      rfl
    · rw [hrev, henr]
      rfl
    · rw [hq, henr]
      rfl
    · rw [hov, hrev, henr]
      rfl

/-- Witness for C4 at concrete inputs: a nonempty one for the mean clause, the
empty selection for the empty clause. -/
theorem analyzeData_overall_mean_and_empty_witness :
    ((analyzeData [cexQuestion] [cexRecord] ["alice"]).reviewerStats ≠ []
      ∧ (analyzeData [cexQuestion] [cexRecord] ["alice"]).overall.reviewerCount =
        (analyzeData [cexQuestion] [cexRecord] ["alice"]).reviewerStats.length)
    ∧ (analyzeData [] [] []).overall = ⟨0, 0⟩ := by
  refine ⟨⟨by decide, ?_⟩, ?_⟩
  · exact ((analyzeData_overall_mean_and_empty [cexQuestion] [cexRecord]
      ["alice"]).1 (by decide)).2
  · exact ((analyzeData_overall_mean_and_empty [] [] []).2 rfl).2.2.2.2

end SakuraQA
